import Mathlib

/-! # A shallow embedding of the GEMM benchmark kernels

This file embeds the dense matrix-multiply kernels of the benchmark
(CPU variants `gemm_cpu_o0` … `gemm_cpu_o3`, GPU variants
`gemm_gpu_o0` … `gemm_gpu_o3`, the cuBLAS wrapper, and the thin
command-line / correctness-check harness) and proves the specified
properties about them.

Matrices are flat row-major buffers, modelled as total functions
`Nat → α` from flat indices to entries; the kernels read
`A[i*K + k]`, `B[k*N + j]` and update `C[i*N + j]` exactly as the
source does.  Scalar arithmetic is kept abstract: each kernel takes
the addition and multiplication (and, for the GPU kernels, the zero)
as explicit parameters, so theorems proved for arbitrary `add`/`mul`
hold in particular for IEEE-754 float semantics, and numerical claims
are stated at the exact-arithmetic instance `α = ℚ`.
-/

namespace Gemm

variable {α : Type}

/-- CPU tile edge, the source's `TILE_SIZE` macro (64). -/
def TILE_SIZE : Nat := 64

/-- GPU thread-block edge for `gemm_gpu_o1`, the source's `BLOCK_SIZE` macro (16). -/
def BLOCK_SIZE : Nat := 16

/-- GPU shared-memory tile edge for `gemm_gpu_o2_kernel`, the source's `TILE_SIZE` macro (32). -/
def TILE_SIZE_GPU : Nat := 32

/-- GPU shared-memory tile edge for `gemm_gpu_o3_kernel`, the source's `TILE_SIZE_BEST` macro (16). -/
def TILE_SIZE_BEST : Nat := 16

/-- The interval `[a, b)` as a list: the index sequence of `for (x = a; x < b; x++)`. -/
def listIco (a b : Nat) : List Nat := (List.range (b - a)).map (fun x => a + x)

/-- One store to the flat row-major output buffer:
`C[i * N + j] = f(C[i * N + j])`, all other cells untouched. -/
def updCell (N i j : Nat) (f : α → α) (C : Nat → α) : Nat → α :=
  fun idx => if idx = i * N + j then f (C idx) else C idx

/-- `gemm_cpu_o0` (src/unnamed/part_000:36-44): the naive baseline,
loop order `j`, `i`, `k`, body `C[i*N+j] += A[i*K+k] * B[k*N+j]`. -/
def gemm_cpu_o0 (add mul : α → α → α) (A B C : Nat → α) (M N K : Nat) : Nat → α :=
  (List.range N).foldl (fun c0 j =>
    (List.range M).foldl (fun c1 i =>
      (List.range K).foldl (fun c2 k =>
        updCell N i j (fun c => add c (mul (A (i * K + k)) (B (k * N + j)))) c2) c1) c0) C

/-- `gemm_cpu_o1` (src/unnamed/part_000:48-59): loop order `i`, `k`, `j`
with `A_ik = A[i*K+k]` hoisted out of the inner loop. -/
def gemm_cpu_o1 (add mul : α → α → α) (A B C : Nat → α) (M N K : Nat) : Nat → α :=
  (List.range M).foldl (fun c0 i =>
    (List.range K).foldl (fun c1 k =>
      let A_ik := A (i * K + k)
      (List.range N).foldl (fun c2 j =>
        updCell N i j (fun c => add c (mul A_ik (B (k * N + j)))) c2) c1) c0) C

/-- The start offsets visited by `for (x = 0; x < n; x += T)`:
`0, T, 2T, …` while `< n`, i.e. `⌈n/T⌉` many multiples of `T`. -/
def tileStarts (n T : Nat) : List Nat := (List.range ((n + T - 1) / T)).map (fun t => t * T)

/-- `gemm_cpu_o2` (src/unnamed/part_000:61-79): `j` and `k` tiled by
`TILE_SIZE`, inner loops clipped at the matrix edge via
`minK = min(kk + TILE_SIZE, K)`, `minN = min(jj + TILE_SIZE, N)`. -/
def gemm_cpu_o2 (add mul : α → α → α) (A B C : Nat → α) (M N K : Nat) : Nat → α :=
  (tileStarts N TILE_SIZE).foldl (fun c0 jj =>
    (tileStarts K TILE_SIZE).foldl (fun c1 kk =>
      (List.range M).foldl (fun c2 i =>
        let minK := min (kk + TILE_SIZE) K
        let minN := min (jj + TILE_SIZE) N
        (listIco kk minK).foldl (fun c3 k =>
          let A_ik := A (i * K + k)
          (listIco jj minN).foldl (fun c4 j =>
            updCell N i j (fun c => add c (mul A_ik (B (k * N + j)))) c4) c3) c2) c1) c0) C

/-- `gemm_cpu_o3` (src/unnamed/part_000:81-102): textually the tiled
`gemm_cpu_o2` loop nest with `#pragma omp parallel for collapse(2)` on
the two outer tile loops and `#pragma omp simd` on the inner loop; the
pragmas do not change the sequential loop semantics modelled here (the
independence of the parallelised iterations is analysed separately via
the per-tile write footprints `tileWrites`). -/
def gemm_cpu_o3 (add mul : α → α → α) (A B C : Nat → α) (M N K : Nat) : Nat → α :=
  (tileStarts N TILE_SIZE).foldl (fun c0 jj =>
    (tileStarts K TILE_SIZE).foldl (fun c1 kk =>
      (List.range M).foldl (fun c2 i =>
        let minK := min (kk + TILE_SIZE) K
        let minN := min (jj + TILE_SIZE) N
        (listIco kk minK).foldl (fun c3 k =>
          let A_ik := A (i * K + k)
          (listIco jj minN).foldl (fun c4 j =>
            updCell N i j (fun c => add c (mul A_ik (B (k * N + j)))) c4) c3) c2) c1) c0) C

/-- `gemm_gpu_o0` (src/gpu/gemm_gpu.cu:89-107): launched with a single
thread, which runs the whole triple loop `i`, `j`, `k`, accumulating
`C[i*N+j] += A[i*K+k] * B[k*N+j]`. -/
def gemm_gpu_o0 (add mul : α → α → α) (A B C : Nat → α) (M N K : Nat) : Nat → α :=
  (List.range M).foldl (fun c0 i =>
    (List.range N).foldl (fun c1 j =>
      (List.range K).foldl (fun c2 k =>
        updCell N i j (fun c => add c (mul (A (i * K + k)) (B (k * N + j)))) c2) c1) c0) C

/-- Number of thread rows (resp. columns) covered by a grid of
`⌈n / bs⌉` blocks of edge `bs`, as launched by the GPU host wrappers. -/
def gridCover (n bs : Nat) : Nat := ((n + bs - 1) / bs) * bs

/-- A grid of threads, one per `(row, col)` with `row < gridCover M bs`
and `col < gridCover N bs`; the thread guarded by `row < M && col < N`
assigns `C[row*N + col] = write row col`.  Each in-bounds thread writes
one distinct cell with a value independent of `C`, so the sequential
fold below is a faithful linearisation of the parallel execution. -/
def gridRun (bs : Nat) (write : Nat → Nat → α) (C : Nat → α) (M N : Nat) : Nat → α :=
  (List.range (gridCover M bs)).foldl (fun c0 row =>
    (List.range (gridCover N bs)).foldl (fun c1 col =>
      if row < M ∧ col < N then
        fun idx => if idx = row * N + col then write row col else c1 idx
      else c1) c0) C

/-- The per-thread register accumulation of `gemm_gpu_o1_kernel`
(src/gpu/gemm_gpu.cu:110-124): `sum = 0; for k { sum += A[row*K+k] * B[k*N+col] }`. -/
def o1ThreadSum (zero : α) (add mul : α → α → α) (A B : Nat → α) (N K row col : Nat) : α :=
  (List.range K).foldl (fun s k => add s (mul (A (row * K + k)) (B (k * N + col)))) zero

/-- `gemm_gpu_o1` (src/gpu/gemm_gpu.cu:110-132): one thread per output
cell on a `BLOCK_SIZE`-block grid; the in-range thread ASSIGNS
`C[row*N + col] = sum` (it does not read the prior `C`). -/
def gemm_gpu_o1 (zero : α) (add mul : α → α → α) (A B C : Nat → α) (M N K : Nat) : Nat → α :=
  gridRun BLOCK_SIZE (fun row col => o1ThreadSum zero add mul A B N K row col) C M N

/-- The value of shared-memory slot `shared_A[ty][k]` read in the inner
product loop of the tiled GPU kernels, for the thread computing output
row `row`, at tile step `m`: loaded by the thread with `tx = k` as
`A[row*K + m*T + k]` when `row < M && m*T + k < K`, else zero-filled. -/
def sharedA (zero : α) (A : Nat → α) (T M K row m k : Nat) : α :=
  if row < M ∧ m * T + k < K then A (row * K + (m * T + k)) else zero

/-- The value of shared-memory slot `shared_B[k][tx]` read in the inner
product loop of the tiled GPU kernels, for the thread computing output
column `col`, at tile step `m`: loaded by the thread with `ty = k` as
`B[(m*T + k)*N + col]` when `col < N && m*T + k < K`, else zero-filled. -/
def sharedB (zero : α) (B : Nat → α) (T N K col m k : Nat) : α :=
  if col < N ∧ m * T + k < K then B ((m * T + k) * N + col) else zero

/-- The per-thread register `Cvalue` of the shared-memory tiled GPU
kernels (src/gpu/gemm_gpu.cu:134-176 and 186-228): over the
`⌈K/T⌉` tile steps, accumulate `shared_A[ty][k] * shared_B[k][tx]`
for `k = 0 … T-1`, starting from `Cvalue = 0`. -/
def tiledCvalue (zero : α) (add mul : α → α → α) (A B : Nat → α)
    (T M N K row col : Nat) : α :=
  (List.range ((K + T - 1) / T)).foldl (fun cv m =>
    (List.range T).foldl (fun cv2 k =>
      add cv2 (mul (sharedA zero A T M K row m k) (sharedB zero B T N K col m k))) cv) zero

/-- `gemm_gpu_o2` (src/gpu/gemm_gpu.cu:134-184): shared-memory tiling
with tile edge `TILE_SIZE` (32); the in-range thread ASSIGNS
`C[row*N + col] = Cvalue`. -/
def gemm_gpu_o2 (zero : α) (add mul : α → α → α) (A B C : Nat → α) (M N K : Nat) : Nat → α :=
  gridRun TILE_SIZE_GPU
    (fun row col => tiledCvalue zero add mul A B TILE_SIZE_GPU M N K row col) C M N

/-- `gemm_gpu_o3` (src/gpu/gemm_gpu.cu:186-236): identical to
`gemm_gpu_o2` but with tile edge `TILE_SIZE_BEST` (16). -/
def gemm_gpu_o3 (zero : α) (add mul : α → α → α) (A B C : Nat → α) (M N K : Nat) : Nat → α :=
  gridRun TILE_SIZE_BEST
    (fun row col => tiledCvalue zero add mul A B TILE_SIZE_BEST M N K row col) C M N

/-- Modelled from the spec: the cuBLAS routine `cublasSgemm` called by
`gemm_cublas` (src/gpu/gemm_gpu.cu:238-249) is external library code;
its documented contract is `C = α·A·B + β·C`, and the wrapper passes
`alpha = 1`, `beta = 0`.  In-range cells therefore receive the plain
product `Σₖ A[i,k]·B[k,j]`. -/
def gemm_cublas (A B C : Nat → ℚ) (M N K : Nat) : Nat → ℚ :=
  fun idx =>
    if 0 < N ∧ idx < M * N then
      1 * (∑ k ∈ Finset.range K, A (idx / N * K + k) * B (k * N + idx % N)) + 0 * C idx
    else C idx

/-! ## Iteration traces

Each CPU-style loop nest is re-expressed as the list of its `(i, k, j)`
iterations in program order; one projection lemma then reads off the
final value of any single cell.  The traces below are literal
transcriptions of the loop nests above. -/

/-- One update operation on the output buffer: the target cell `(i, j)`
together with the function applied to its current contents. -/
def applyOps (N : Nat) (L : List ((Nat × Nat) × (α → α))) (C : Nat → α) : Nat → α :=
  L.foldl (fun cs op => updCell N op.1.1 op.1.2 op.2 cs) C

/-- The operation performed by iteration `(i, k, j)` of any of the
accumulating loop nests: `C[i*N+j] += A[i*K+k] * B[k*N+j]`. -/
def accOp (add mul : α → α → α) (A B : Nat → α) (K N : Nat) (t : Nat × Nat × Nat) :
    (Nat × Nat) × (α → α) :=
  ((t.1, t.2.2), fun c => add c (mul (A (t.1 * K + t.2.1)) (B (t.2.1 * N + t.2.2))))

/-- The `(i, k, j)` iterations of `gemm_cpu_o0`, loop order `j`, `i`, `k`. -/
def trace_o0 (M N K : Nat) : List (Nat × Nat × Nat) :=
  (List.range N).flatMap (fun j =>
    (List.range M).flatMap (fun i =>
      (List.range K).map (fun k => (i, k, j))))

/-- The `(i, k, j)` iterations of `gemm_cpu_o1`, loop order `i`, `k`, `j`. -/
def trace_o1 (M N K : Nat) : List (Nat × Nat × Nat) :=
  (List.range M).flatMap (fun i =>
    (List.range K).flatMap (fun k =>
      (List.range N).map (fun j => (i, k, j))))

/-- The `(i, k, j)` iterations of the body of one `(jj, kk)` tile pair of
`gemm_cpu_o2`/`gemm_cpu_o3` — the unit of work one OpenMP task executes
under `collapse(2)`. -/
def tileIters (M N K T jj kk : Nat) : List (Nat × Nat × Nat) :=
  (List.range M).flatMap (fun i =>
    (listIco kk (min (kk + T) K)).flatMap (fun k =>
      (listIco jj (min (jj + T) N)).map (fun j => (i, k, j))))

/-- The `(i, k, j)` iterations of `gemm_cpu_o2`/`gemm_cpu_o3`. -/
def trace_o2 (M N K T : Nat) : List (Nat × Nat × Nat) :=
  (tileStarts N T).flatMap (fun jj =>
    (tileStarts K T).flatMap (fun kk => tileIters M N K T jj kk))

/-- The `(i, k, j)` iterations of the `gemm_gpu_o0` kernel's single
thread, loop order `i`, `j`, `k`. -/
def trace_gpu_o0 (M N K : Nat) : List (Nat × Nat × Nat) :=
  (List.range M).flatMap (fun i =>
    (List.range N).flatMap (fun j =>
      (List.range K).map (fun k => (i, k, j))))

/-- The multiset of C cells (flat indices) written by the body of one
`(jj, kk)` tile pair of `gemm_cpu_o3` — its output footprint. -/
def tileWrites (M N K T jj kk : Nat) : List Nat :=
  (tileIters M N K T jj kk).map (fun t => t.1 * N + t.2.2)

/-- The per-cell accumulation of the `K` products into an initial value
`c`, in increasing `k` order — the common per-cell contract of all the
accumulating loop nests. -/
def cellValue (add mul : α → α → α) (A B : Nat → α) (K N i j : Nat) (c : α) : α :=
  (List.range K).foldl (fun acc k => add acc (mul (A (i * K + k)) (B (k * N + j)))) c

/-- The common denotation of the accumulating CPU-style loop nests: each
in-range cell `(i, j) = (idx / N, idx % N)` accumulates its `K` products
in increasing `k` order; every other index is untouched. -/
def gemmCells (add mul : α → α → α) (A B C : Nat → α) (M N K : Nat) : Nat → α :=
  fun idx =>
    if 0 < N ∧ idx < M * N then
      cellValue add mul A B K N (idx / N) (idx % N) (C idx)
    else C idx

/-! ## The harness: command line and correctness checks -/

/-- Exit-code behaviour of the CPU `main` (src/unnamed/part_000:105-145):
`argv` includes the program name, so `argc = argv.length`; the only
early exit is `if (argc < 3) { ...usage...; return 1; }`, and the
benchmark path falls through to `return 0`. -/
def cpuMainExit (argv : List String) : Nat :=
  if argv.length < 3 then 1 else 0

/-- Exit-code behaviour of the GPU `main` (src/gpu/gemm_gpu.cu:252-296):
same `if (argc < 3) return 1;` guard, then `return 0`. -/
def gpuMainExit (argv : List String) : Nat :=
  if argv.length < 3 then 1 else 0

/-- The stderr output of one CPU `CHECK(name)` block
(src/unnamed/part_000:7-13): if `ref.checkRef(refC)` fails, one warning
line is printed to `std::cerr`; neither branch returns or exits. -/
def checkBlock (name : String) (ok : Bool) : List String :=
  if ok then [] else [name ++ ": check ref failed!"]

/-- Observable behaviour of a `main` run past the `argc` guard:
accumulated stderr lines, the stdout timing lines, and the exit code. -/
structure MainRun where
  stderrLines : List String
  stdoutLines : List String
  exitCode : Nat

/-- The CPU `main` past the `argc` guard (src/unnamed/part_000:127-144):
the four `CHECK` blocks run unconditionally in sequence (a failed check
only appends its stderr warning), then `TIME(gemm_cpu_o3)` prints its
timing line, then `return 0`.  The booleans abstract the four
`ref.checkRef` oracle outcomes. -/
def cpuMainRun (ok0 ok1 ok2 ok3 : Bool) : MainRun :=
  { stderrLines :=
      checkBlock "gemm_cpu_o0" ok0 ++ checkBlock "gemm_cpu_o1" ok1 ++
      checkBlock "gemm_cpu_o2" ok2 ++ checkBlock "gemm_cpu_o3" ok3
    stdoutLines := ["Time taken for GEMM (CPU,gemm_cpu_o3): <elapsed>ms"]
    exitCode := 0 }

/-- The stderr output of one GPU `CHECK(name)` block
(src/gpu/gemm_gpu.cu:20-43) when no CUDA API error occurs: the
`"checking name"` banner, then the warning line if `ref.checkRef`
fails; a failed check does not return or exit. -/
def gpuCheckBlock (name : String) (ok : Bool) : List String :=
  ("checking " ++ name) :: (if ok then [] else ["check ref failed!"])

/-- The GPU `main` past the `argc` guard (src/gpu/gemm_gpu.cu:270-295),
on the path where every CUDA API call succeeds: the five `CHECK` blocks
run unconditionally in sequence, then the five `TIME` blocks print
their timing lines, then `return 0`. -/
def gpuMainRun (ok0 ok1 ok2 ok3 okb : Bool) : MainRun :=
  { stderrLines :=
      gpuCheckBlock "gemm_gpu_o0" ok0 ++ gpuCheckBlock "gemm_gpu_o1" ok1 ++
      gpuCheckBlock "gemm_gpu_o2" ok2 ++ gpuCheckBlock "gemm_gpu_o3" ok3 ++
      gpuCheckBlock "gemm_cublas" okb
    stdoutLines :=
      ["Time taken for GEMM (GPU, gemm_gpu_o0): <elapsed>ms",
       "Time taken for GEMM (GPU, gemm_gpu_o1): <elapsed>ms",
       "Time taken for GEMM (GPU, gemm_gpu_o2): <elapsed>ms",
       "Time taken for GEMM (GPU, gemm_gpu_o3): <elapsed>ms",
       "Time taken for GEMM (GPU, gemm_cublas): <elapsed>ms"]
    exitCode := 0 }

/-! ## The concrete 2×2 scenario -/

/-- Row-major `A = [[1,2],[3,4]]` of the concrete scenario. -/
def scenarioA : Nat → ℚ := fun idx =>
  if idx = 0 then 1 else if idx = 1 then 2 else if idx = 2 then 3 else if idx = 3 then 4 else 0

/-- Row-major `B = [[5,6],[7,8]]` of the concrete scenario. -/
def scenarioB : Nat → ℚ := fun idx =>
  if idx = 0 then 5 else if idx = 1 then 6 else if idx = 2 then 7 else if idx = 3 then 8 else 0

/-- The pre-zeroed output buffer. -/
def zeroC : Nat → ℚ := fun _ => 0

/-- Row-major `C = [[19,22],[43,50]]`, the expected scenario result
(cells outside the 2×2 output stay at their pre-zeroed value 0). -/
def scenarioC : Nat → ℚ := fun idx =>
  if idx = 0 then 19 else if idx = 1 then 22 else if idx = 2 then 43 else if idx = 3 then 50
  else 0

/-! ## Basic fold and index lemmas -/

theorem foldl_flatMap {β γ δ : Type} (f : β → γ → β) (g : δ → List γ) (l : List δ) (b : β) :
    (l.flatMap g).foldl f b = l.foldl (fun s x => (g x).foldl f s) b := by
  induction l generalizing b with
  | nil => rfl
  | cons x l ih => rw [List.flatMap_cons, List.foldl_append, List.foldl_cons, ih]

theorem foldl_const {β γ : Type} (l : List β) (c : γ) :
    l.foldl (fun s _ => s) c = c := by
  induction l with
  | nil => rfl
  | cons x l ih => rw [List.foldl_cons]; exact ih

/-- The flat row-major index map recovers the row. -/
theorem flat_div {i j N : Nat} (hj : j < N) : (i * N + j) / N = i := by
  have hN : 0 < N := Nat.pos_of_ne_zero (by omega)
  rw [mul_comm, Nat.mul_add_div hN, Nat.div_eq_of_lt hj, add_zero]

/-- The flat row-major index map recovers the column. -/
theorem flat_mod {i j N : Nat} (hj : j < N) : (i * N + j) % N = j := by
  rw [mul_comm, Nat.mul_add_mod, Nat.mod_eq_of_lt hj]

/-- Injectivity of the flat row-major index map. -/
theorem flat_eq_iff {i j i' j' N : Nat} (hj : j < N) (hj' : j' < N) :
    i * N + j = i' * N + j' ↔ i = i' ∧ j = j' := by
  constructor
  · intro h
    have h1 : (i * N + j) / N = (i' * N + j') / N := by rw [h]
    have h2 : (i * N + j) % N = (i' * N + j') % N := by rw [h]
    rw [flat_div hj, flat_div hj'] at h1
    rw [flat_mod hj, flat_mod hj'] at h2
    exact ⟨h1, h2⟩
  · rintro ⟨rfl, rfl⟩; rfl

/-- A grid of `⌈n/T⌉` blocks of edge `T` covers all `n` indices. -/
theorem le_ceil_mul (n T : Nat) (hT : 0 < T) : n ≤ (n + T - 1) / T * T := by
  have hd := Nat.div_add_mod (n + T - 1) T
  have hm : (n + T - 1) % T < T := Nat.mod_lt _ hT
  have : (n + T - 1) / T * T = T * ((n + T - 1) / T) := mul_comm _ _
  omega

/-- In-range indices land in a strictly earlier block than `⌈n/T⌉`. -/
theorem div_lt_ceil {x n : Nat} (T : Nat) (hx : x < n) (hT : 0 < T) :
    x / T < (n + T - 1) / T := by
  by_contra hc
  have h1 : n ≤ (n + T - 1) / T * T := le_ceil_mul n T hT
  have h2 : x / T * T ≤ x := Nat.div_mul_le_self x T
  have h3 : (n + T - 1) / T * T ≤ x / T * T :=
    Nat.mul_le_mul_right T (by omega)
  omega

/-- Division truncates to the containing tile start. -/
theorem tile_start_le (x T : Nat) : x / T * T ≤ x := Nat.div_mul_le_self x T

/-- Each index lies strictly inside its containing tile. -/
theorem lt_tile_end (x T : Nat) (hT : 0 < T) : x < x / T * T + T := by
  have hd := Nat.div_add_mod x T
  have hm : x % T < T := Nat.mod_lt _ hT
  have : x / T * T = T * (x / T) := mul_comm _ _
  omega

/-- A tile interval determines its start: `t*T ≤ x < t*T + T` forces `x / T = t`. -/
theorem div_eq_of_tile {x t T : Nat} (hT : 0 < T) (h1 : t * T ≤ x) (h2 : x < t * T + T) :
    x / T = t := by
  have := Nat.div_add_mod x T
  have hm : x % T < T := Nat.mod_lt _ hT
  have h3 : x / T * T ≤ x := Nat.div_mul_le_self x T
  have h4 : x < x / T * T + T := lt_tile_end x T hT
  -- both t and x / T are the unique multiple of T within distance T of x
  by_contra hne
  rcases Nat.lt_or_ge (x / T) t with hlt | hge
  · have : x / T * T + T ≤ t * T := by
      have : x / T + 1 ≤ t := hlt
      calc x / T * T + T = (x / T + 1) * T := by ring
        _ ≤ t * T := Nat.mul_le_mul_right T this
    omega
  · have hgt : t < x / T := lt_of_le_of_ne hge (fun h => hne h.symm)
    have : t * T + T ≤ x / T * T := by
      have : t + 1 ≤ x / T := hgt
      calc t * T + T = (t + 1) * T := by ring
        _ ≤ x / T * T := Nat.mul_le_mul_right T this
    omega

/-! ## listIco and tileStarts lemmas -/

theorem listIco_eq_range' (a b : Nat) :
    listIco a b = List.range' a (b - a) := by
  unfold listIco
  generalize b - a = n
  induction n generalizing a with
  | zero => rfl
  | succ n ih =>
      rw [List.range_succ_eq_map, List.map_cons, List.map_map, List.range'_succ]
      congr 1
      rw [← ih (a + 1)]
      apply List.map_congr_left
      intro x _
      simp [Function.comp]
      omega

theorem mem_listIco {x a b : Nat} : x ∈ listIco a b ↔ a ≤ x ∧ x < b := by
  rw [listIco_eq_range', List.mem_range'_1]
  omega

theorem listIco_nodup (a b : Nat) : (listIco a b).Nodup := by
  rw [listIco_eq_range']; exact List.nodup_range' a (b - a)

theorem listIco_zero (b : Nat) : listIco 0 b = List.range b := by
  rw [listIco_eq_range', Nat.sub_zero, List.range_eq_range']

theorem listIco_empty {a b : Nat} (h : b ≤ a) : listIco a b = [] := by
  rw [listIco_eq_range', Nat.sub_eq_zero_of_le h]; rfl

theorem listIco_append {a b c : Nat} (hab : a ≤ b) (hbc : b ≤ c) :
    listIco a b ++ listIco b c = listIco a c := by
  rw [listIco_eq_range', listIco_eq_range', listIco_eq_range']
  have h := List.range'_append a (b - a) (c - b) 1
  rw [show a + 1 * (b - a) = b by omega] at h
  rw [h, show c - b + (b - a) = c - a by omega]

theorem mem_tileStarts {x n T : Nat} : x ∈ tileStarts n T ↔ ∃ t < (n + T - 1) / T, x = t * T := by
  unfold tileStarts
  simp only [List.mem_map, List.mem_range]
  constructor
  · rintro ⟨t, ht, rfl⟩; exact ⟨t, ht, rfl⟩
  · rintro ⟨t, ht, rfl⟩; exact ⟨t, ht, rfl⟩

theorem tileStarts_nodup (n T : Nat) (hT : 0 < T) : (tileStarts n T).Nodup := by
  unfold tileStarts
  refine List.Nodup.map ?_ (List.nodup_range _)
  intro a b hab
  exact Nat.eq_of_mul_eq_mul_right hT hab

/-- The tile start containing an in-range index is itself generated by
the tile loop. -/
theorem tile_of_mem {x n T : Nat} (hx : x < n) (hT : 0 < T) :
    x / T * T ∈ tileStarts n T := by
  rw [mem_tileStarts]
  exact ⟨x / T, div_lt_ceil T hx hT, rfl⟩

/-- The tile intervals `[kk, min (kk+T) n)` for `kk` ranging over the
tile starts concatenate, in order, to the full index range `[0, n)`. -/
theorem tile_partition (n T : Nat) (hT : 0 < T) :
    (tileStarts n T).flatMap (fun kk => listIco kk (min (kk + T) n)) = List.range n := by
  unfold tileStarts
  have aux : ∀ m : Nat,
      ((List.range m).map (fun t => t * T)).flatMap (fun kk => listIco kk (min (kk + T) n))
        = listIco 0 (min (m * T) n) := by
    intro m
    induction m with
    | zero => simp [listIco_empty]
    | succ m ih =>
        rw [List.range_succ, List.map_append, List.flatMap_append, ih]
        simp only [List.map_cons, List.map_nil, List.flatMap_cons, List.flatMap_nil,
          List.append_nil]
        rcases Nat.lt_or_ge (m * T) n with hlt | hge
        · have h1 : min (m * T) n = m * T := by omega
          have h2 : min (m * T + T) n = min ((m + 1) * T) n := by
            congr 1; ring
          rw [h1, ← h2, listIco_append (Nat.zero_le _) (by omega)]
        · have h1 : min (m * T) n = n := by omega
          have h2 : min ((m + 1) * T) n = n := by
            have : m * T ≤ (m + 1) * T := by nlinarith
            omega
          have h3 : listIco (m * T) (min (m * T + T) n) = [] := by
            apply listIco_empty; omega
          rw [h1, h2, h3, List.append_nil]
  rw [aux]
  have : min ((n + T - 1) / T * T) n = n := by
    have := le_ceil_mul n T hT
    omega
  rw [this, listIco_zero]

/-! ## Projection of a store trace onto a single cell -/

theorem filter_flatMap {β γ : Type} (l : List β) (g : β → List γ) (p : γ → Bool) :
    (l.flatMap g).filter p = l.flatMap (fun x => (g x).filter p) := by
  induction l with
  | nil => rfl
  | cons x l ih => rw [List.flatMap_cons, List.filter_append, ih, List.flatMap_cons]

theorem flatMap_sing {β γ : Type} (l : List β) (f : β → γ) :
    l.flatMap (fun x => [f x]) = l.map f := by
  induction l with
  | nil => rfl
  | cons x l ih => rw [List.flatMap_cons, List.map_cons, ih]; rfl

theorem filter_eq_single {l : List Nat} (hnd : l.Nodup) (a : Nat) :
    l.filter (fun x => x = a) = if a ∈ l then [a] else [] := by
  induction l with
  | nil => simp
  | cons x l ih =>
      rcases List.nodup_cons.mp hnd with ⟨hx, hnd'⟩
      rw [List.filter_cons]
      by_cases hxa : x = a
      · subst hxa
        rw [if_pos (by simp), ih hnd', if_neg hx, if_pos (List.mem_cons_self x l)]
      · rw [if_neg (by simpa using hxa), ih hnd']
        by_cases ha : a ∈ l
        · rw [if_pos ha, if_pos (List.mem_cons_of_mem x ha)]
        · rw [if_neg ha, if_neg (by
            simp only [List.mem_cons, ha, or_false]
            exact fun h => hxa h.symm)]

theorem flatMap_single {β : Type} {l : List Nat} {g : Nat → List β} (hnd : l.Nodup)
    {a : Nat} (ha : a ∈ l) (hg : ∀ x ∈ l, x ≠ a → g x = []) :
    l.flatMap g = g a := by
  induction l with
  | nil => cases ha
  | cons x l ih =>
      rcases List.nodup_cons.mp hnd with ⟨hx, hnd'⟩
      rw [List.flatMap_cons]
      rcases List.mem_cons.mp ha with rfl | ha'
      · have hrest : l.flatMap g = [] := by
          apply List.flatMap_eq_nil_iff.mpr
          intro y hy
          exact hg y (List.mem_cons_of_mem a hy) (by rintro rfl; exact hx hy)
        rw [hrest, List.append_nil]
      · have hxa : x ≠ a := by rintro rfl; exact hx ha'
        rw [hg x (List.mem_cons_self x l) hxa, List.nil_append]
        exact ih hnd' ha' (fun y hy hne => hg y (List.mem_cons_of_mem x hy) hne)

/-- The final value of one output cell under a list of `updCell` stores
is the fold, over the stores that hit that cell in program order, of
their update functions. -/
theorem applyOps_apply (N idx : Nat) (L : List ((Nat × Nat) × (α → α))) (C : Nat → α) :
    applyOps N L C idx =
      ((L.filter (fun op => op.1.1 * N + op.1.2 = idx)).map (fun op => op.2)).foldl
        (fun c f => f c) (C idx) := by
  induction L generalizing C with
  | nil => rfl
  | cons op L ih =>
      have hstep : applyOps N (op :: L) C = applyOps N L (updCell N op.1.1 op.1.2 op.2 C) :=
        rfl
      rw [hstep, ih]
      by_cases h : op.1.1 * N + op.1.2 = idx
      · have hu : updCell N op.1.1 op.1.2 op.2 C idx = op.2 (C idx) := by
          unfold updCell; rw [if_pos h.symm]
        rw [List.filter_cons, if_pos (by simpa using h), List.map_cons, List.foldl_cons, hu]
      · have hu : updCell N op.1.1 op.1.2 op.2 C idx = C idx := by
          unfold updCell; rw [if_neg (fun hh => h hh.symm)]
        rw [List.filter_cons, if_neg (by simpa using h), hu]

/-! ## Filtering the traces onto one target cell -/

/-- Filtering a `k`-inner-loop segment: the cell predicate does not
depend on `k`, so the segment survives whole or vanishes. -/
theorem filter_map_triple {i j c₀ N : Nat} (l : List Nat) :
    ((l.map (fun k => (i, k, j))).filter (fun t => t.1 * N + t.2.2 = c₀))
      = if i * N + j = c₀ then l.map (fun k => (i, k, j)) else [] := by
  rw [List.filter_map]
  by_cases h : i * N + j = c₀
  · rw [if_pos h]
    have : l.filter ((fun t : Nat × Nat × Nat => decide (t.1 * N + t.2.2 = c₀)) ∘
        (fun k => (i, k, j))) = l := by
      apply List.filter_eq_self.mpr
      intro a _
      simpa using h
    rw [this]
  · rw [if_neg h]
    have : l.filter ((fun t : Nat × Nat × Nat => decide (t.1 * N + t.2.2 = c₀)) ∘
        (fun k => (i, k, j))) = [] := by
      apply List.filter_eq_nil_iff.mpr
      intro a _
      simpa using h
    rw [this, List.map_nil]

theorem trace_o0_filter {M N K i₀ j₀ : Nat} (hi : i₀ < M) (hj : j₀ < N) :
    (trace_o0 M N K).filter (fun t => t.1 * N + t.2.2 = i₀ * N + j₀)
      = (List.range K).map (fun k => (i₀, k, j₀)) := by
  unfold trace_o0
  rw [filter_flatMap]
  have houter : ∀ j ∈ List.range N, j ≠ j₀ →
      ((List.range M).flatMap (fun i =>
        (List.range K).map (fun k => (i, k, j)))).filter
          (fun t => t.1 * N + t.2.2 = i₀ * N + j₀) = [] := by
    intro j hjN hne
    rw [filter_flatMap]
    apply List.flatMap_eq_nil_iff.mpr
    intro i _
    rw [filter_map_triple, if_neg]
    intro hc
    exact hne ((flat_eq_iff (List.mem_range.mp hjN) hj).mp hc).2
  rw [flatMap_single (List.nodup_range N) (List.mem_range.mpr hj) houter]
  rw [filter_flatMap]
  have hinner : ∀ i ∈ List.range M, i ≠ i₀ →
      ((List.range K).map (fun k => (i, k, j₀))).filter
        (fun t => t.1 * N + t.2.2 = i₀ * N + j₀) = [] := by
    intro i _ hne
    rw [filter_map_triple, if_neg]
    intro hc
    exact hne ((flat_eq_iff hj hj).mp hc).1
  rw [flatMap_single (List.nodup_range M) (List.mem_range.mpr hi) hinner]
  rw [filter_map_triple, if_pos rfl]

/-- Filtering a `j`-inner-loop segment onto the target cell `(i₀, j₀)`:
only the iteration `j = j₀` survives, and only on the row `i = i₀`. -/
theorem filter_map_byj {i k i₀ j₀ N : Nat} (hj₀ : j₀ < N) (l : List Nat)
    (hl : ∀ x ∈ l, x < N) (hnd : l.Nodup) :
    ((l.map (fun j => (i, k, j))).filter (fun t => t.1 * N + t.2.2 = i₀ * N + j₀))
      = if i = i₀ ∧ j₀ ∈ l then [(i, k, j₀)] else [] := by
  rw [List.filter_map]
  by_cases hii : i = i₀
  · subst hii
    have hcongr : l.filter ((fun t : Nat × Nat × Nat => decide (t.1 * N + t.2.2 = i * N + j₀)) ∘
        (fun j => (i, k, j))) = l.filter (fun j => j = j₀) := by
      apply List.filter_congr
      intro j hjl
      simp only [Function.comp]
      apply decide_eq_decide.mpr
      exact (flat_eq_iff (hl j hjl) hj₀).trans (by tauto)
    rw [hcongr, filter_eq_single hnd]
    by_cases hmem : j₀ ∈ l
    · rw [if_pos hmem, if_pos ⟨rfl, hmem⟩, List.map_cons, List.map_nil]
    · rw [if_neg hmem, if_neg (by tauto), List.map_nil]
  · have hnil : l.filter ((fun t : Nat × Nat × Nat => decide (t.1 * N + t.2.2 = i₀ * N + j₀)) ∘
        (fun j => (i, k, j))) = [] := by
      apply List.filter_eq_nil_iff.mpr
      intro j hjl
      simp only [Function.comp, decide_eq_true_eq]
      intro hc
      exact hii ((flat_eq_iff (hl j hjl) hj₀).mp hc).1
    rw [hnil, List.map_nil, if_neg (by tauto)]

theorem trace_o1_filter {M N K i₀ j₀ : Nat} (hi : i₀ < M) (hj : j₀ < N) :
    (trace_o1 M N K).filter (fun t => t.1 * N + t.2.2 = i₀ * N + j₀)
      = (List.range K).map (fun k => (i₀, k, j₀)) := by
  unfold trace_o1
  rw [filter_flatMap]
  have houter : ∀ i ∈ List.range M, i ≠ i₀ →
      ((List.range K).flatMap (fun k =>
        (List.range N).map (fun j => (i, k, j)))).filter
          (fun t => t.1 * N + t.2.2 = i₀ * N + j₀) = [] := by
    intro i _ hne
    rw [filter_flatMap]
    apply List.flatMap_eq_nil_iff.mpr
    intro k _
    rw [filter_map_byj hj (List.range N) (fun x hx => List.mem_range.mp hx)
      (List.nodup_range N), if_neg (by tauto)]
  rw [flatMap_single (List.nodup_range M) (List.mem_range.mpr hi) houter]
  rw [filter_flatMap]
  have hfun : (fun k : Nat => ((List.range N).map (fun j => (i₀, k, j))).filter
      (fun t => t.1 * N + t.2.2 = i₀ * N + j₀)) = fun k => [(i₀, k, j₀)] := by
    funext k
    rw [filter_map_byj hj (List.range N) (fun x hx => List.mem_range.mp hx)
      (List.nodup_range N), if_pos ⟨rfl, List.mem_range.mpr hj⟩]
  rw [hfun, flatMap_sing]

/-- Filtering the body of one `(jj, kk)` tile pair onto the target cell:
nothing survives unless the `j`-tile contains `j₀`; in that case the
whole clipped `k`-segment survives on row `i₀`. -/
theorem tileIters_filter {M N K T jj kk i₀ j₀ : Nat} (hi : i₀ < M) (hj : j₀ < N) :
    (tileIters M N K T jj kk).filter (fun t => t.1 * N + t.2.2 = i₀ * N + j₀)
      = if j₀ ∈ listIco jj (min (jj + T) N) then
          (listIco kk (min (kk + T) K)).map (fun k => (i₀, k, j₀))
        else [] := by
  unfold tileIters
  have hjl : ∀ x ∈ listIco jj (min (jj + T) N), x < N := by
    intro x hx
    have := mem_listIco.mp hx
    omega
  rw [filter_flatMap]
  by_cases hmem : j₀ ∈ listIco jj (min (jj + T) N)
  · rw [if_pos hmem]
    have houter : ∀ i ∈ List.range M, i ≠ i₀ →
        ((listIco kk (min (kk + T) K)).flatMap (fun k =>
          (listIco jj (min (jj + T) N)).map (fun j => (i, k, j)))).filter
            (fun t => t.1 * N + t.2.2 = i₀ * N + j₀) = [] := by
      intro i _ hne
      rw [filter_flatMap]
      apply List.flatMap_eq_nil_iff.mpr
      intro k _
      rw [filter_map_byj hj _ hjl (listIco_nodup _ _), if_neg (by tauto)]
    rw [flatMap_single (List.nodup_range M) (List.mem_range.mpr hi) houter]
    rw [filter_flatMap]
    have hfun : (fun k : Nat => ((listIco jj (min (jj + T) N)).map (fun j => (i₀, k, j))).filter
        (fun t => t.1 * N + t.2.2 = i₀ * N + j₀)) = fun k => [(i₀, k, j₀)] := by
      funext k
      rw [filter_map_byj hj _ hjl (listIco_nodup _ _), if_pos ⟨rfl, hmem⟩]
    rw [hfun, flatMap_sing]
  · rw [if_neg hmem]
    apply List.flatMap_eq_nil_iff.mpr
    intro i _
    rw [filter_flatMap]
    apply List.flatMap_eq_nil_iff.mpr
    intro k _
    rw [filter_map_byj hj _ hjl (listIco_nodup _ _), if_neg (by tauto)]

theorem trace_o2_filter {M N K T i₀ j₀ : Nat} (hT : 0 < T) (hi : i₀ < M) (hj : j₀ < N) :
    (trace_o2 M N K T).filter (fun t => t.1 * N + t.2.2 = i₀ * N + j₀)
      = (List.range K).map (fun k => (i₀, k, j₀)) := by
  unfold trace_o2
  rw [filter_flatMap]
  have hjj₀ : j₀ / T * T ∈ tileStarts N T := tile_of_mem hj hT
  have hj₀mem : j₀ ∈ listIco (j₀ / T * T) (min (j₀ / T * T + T) N) := by
    rw [mem_listIco]
    have h1 := tile_start_le j₀ T
    have h2 := lt_tile_end j₀ T hT
    omega
  have houter : ∀ jj ∈ tileStarts N T, jj ≠ j₀ / T * T →
      ((tileStarts K T).flatMap (fun kk => tileIters M N K T jj kk)).filter
        (fun t => t.1 * N + t.2.2 = i₀ * N + j₀) = [] := by
    intro jj hjjm hne
    rw [filter_flatMap]
    apply List.flatMap_eq_nil_iff.mpr
    intro kk _
    rw [tileIters_filter hi hj, if_neg]
    intro hmem
    rcases mem_tileStarts.mp hjjm with ⟨t, _, rfl⟩
    have hbounds := mem_listIco.mp hmem
    have : j₀ / T = t := div_eq_of_tile hT hbounds.1 (by omega)
    exact hne (by rw [this])
  rw [flatMap_single (tileStarts_nodup N T hT) hjj₀ houter]
  rw [filter_flatMap]
  have hfun : (fun kk : Nat => (tileIters M N K T (j₀ / T * T) kk).filter
      (fun t => t.1 * N + t.2.2 = i₀ * N + j₀))
      = fun kk => (listIco kk (min (kk + T) K)).map (fun k => (i₀, k, j₀)) := by
    funext kk
    rw [tileIters_filter hi hj, if_pos hj₀mem]
  rw [hfun, ← List.map_flatMap, tile_partition K T hT]

theorem trace_gpu_o0_filter {M N K i₀ j₀ : Nat} (hi : i₀ < M) (hj : j₀ < N) :
    (trace_gpu_o0 M N K).filter (fun t => t.1 * N + t.2.2 = i₀ * N + j₀)
      = (List.range K).map (fun k => (i₀, k, j₀)) := by
  unfold trace_gpu_o0
  rw [filter_flatMap]
  have houter : ∀ i ∈ List.range M, i ≠ i₀ →
      ((List.range N).flatMap (fun j =>
        (List.range K).map (fun k => (i, k, j)))).filter
          (fun t => t.1 * N + t.2.2 = i₀ * N + j₀) = [] := by
    intro i _ hne
    rw [filter_flatMap]
    apply List.flatMap_eq_nil_iff.mpr
    intro j hjN
    rw [filter_map_triple, if_neg]
    intro hc
    exact hne ((flat_eq_iff (List.mem_range.mp hjN) hj).mp hc).1
  rw [flatMap_single (List.nodup_range M) (List.mem_range.mpr hi) houter]
  rw [filter_flatMap]
  have hinner : ∀ j ∈ List.range N, j ≠ j₀ →
      ((List.range K).map (fun k => (i₀, k, j))).filter
        (fun t => t.1 * N + t.2.2 = i₀ * N + j₀) = [] := by
    intro j hjN hne
    rw [filter_map_triple, if_neg]
    intro hc
    exact hne ((flat_eq_iff (List.mem_range.mp hjN) hj).mp hc).2
  rw [flatMap_single (List.nodup_range N) (List.mem_range.mpr hj) hinner]
  rw [filter_map_triple, if_pos rfl]

/-! ## The loop nests are their traces -/

theorem o0_trace (add mul : α → α → α) (A B C : Nat → α) (M N K : Nat) :
    gemm_cpu_o0 add mul A B C M N K
      = applyOps N ((trace_o0 M N K).map (accOp add mul A B K N)) C := by
  unfold gemm_cpu_o0 applyOps trace_o0 accOp
  simp only [List.foldl_map, foldl_flatMap]

theorem o1_trace (add mul : α → α → α) (A B C : Nat → α) (M N K : Nat) :
    gemm_cpu_o1 add mul A B C M N K
      = applyOps N ((trace_o1 M N K).map (accOp add mul A B K N)) C := by
  unfold gemm_cpu_o1 applyOps trace_o1 accOp
  simp only [List.foldl_map, foldl_flatMap]

theorem o2_trace (add mul : α → α → α) (A B C : Nat → α) (M N K : Nat) :
    gemm_cpu_o2 add mul A B C M N K
      = applyOps N ((trace_o2 M N K TILE_SIZE).map (accOp add mul A B K N)) C := by
  unfold gemm_cpu_o2 applyOps trace_o2 tileIters accOp
  simp only [List.foldl_map, foldl_flatMap]

theorem o3_trace (add mul : α → α → α) (A B C : Nat → α) (M N K : Nat) :
    gemm_cpu_o3 add mul A B C M N K
      = applyOps N ((trace_o2 M N K TILE_SIZE).map (accOp add mul A B K N)) C := by
  unfold gemm_cpu_o3 applyOps trace_o2 tileIters accOp
  simp only [List.foldl_map, foldl_flatMap]

theorem gpu_o0_trace (add mul : α → α → α) (A B C : Nat → α) (M N K : Nat) :
    gemm_gpu_o0 add mul A B C M N K
      = applyOps N ((trace_gpu_o0 M N K).map (accOp add mul A B K N)) C := by
  unfold gemm_gpu_o0 applyOps trace_gpu_o0 accOp
  simp only [List.foldl_map, foldl_flatMap]

/-! ## From traces to the per-cell denotation -/

theorem flat_lt {i j M N : Nat} (hi : i < M) (hj : j < N) : i * N + j < M * N := by
  have h1 : (i + 1) * N = i * N + N := by ring
  have h2 : (i + 1) * N ≤ M * N := Nat.mul_le_mul_right N hi
  omega

/-- A trace whose restriction to the target cell is the plain ascending
`k` sweep yields exactly the per-cell accumulation `cellValue`. -/
theorem applyTrace_cell (add mul : α → α → α) (A B C : Nat → α) (K N : Nat)
    (tr : List (Nat × Nat × Nat)) (i j : Nat)
    (hf : tr.filter (fun t => t.1 * N + t.2.2 = i * N + j)
      = (List.range K).map (fun k => (i, k, j))) :
    applyOps N (tr.map (accOp add mul A B K N)) C (i * N + j)
      = cellValue add mul A B K N i j (C (i * N + j)) := by
  rw [applyOps_apply]
  have hfm : (tr.map (accOp add mul A B K N)).filter
      (fun op => op.1.1 * N + op.1.2 = i * N + j)
      = (tr.filter (fun t => t.1 * N + t.2.2 = i * N + j)).map (accOp add mul A B K N) := by
    rw [List.filter_map]
    congr 1
  rw [hfm, hf, List.map_map, List.map_map, List.foldl_map]
  rfl

/-- A trace that never targets `idx` leaves `C idx` unchanged. -/
theorem applyTrace_away (add mul : α → α → α) (A B C : Nat → α) (K M N : Nat)
    (tr : List (Nat × Nat × Nat)) (hcells : ∀ t ∈ tr, t.1 < M ∧ t.2.2 < N)
    (idx : Nat) (hidx : ¬(0 < N ∧ idx < M * N)) :
    applyOps N (tr.map (accOp add mul A B K N)) C idx = C idx := by
  rw [applyOps_apply]
  have hnil : (tr.map (accOp add mul A B K N)).filter
      (fun op => op.1.1 * N + op.1.2 = idx) = [] := by
    apply List.filter_eq_nil_iff.mpr
    intro op hop
    rcases List.mem_map.mp hop with ⟨t, ht, rfl⟩
    rcases hcells t ht with ⟨hiM, hjN⟩
    simp only [accOp, decide_eq_true_eq]
    intro hc
    exact hidx ⟨by omega, hc ▸ flat_lt hiM hjN⟩
  rw [hnil]
  rfl

theorem trace_o0_cells {M N K : Nat} : ∀ t ∈ trace_o0 M N K, t.1 < M ∧ t.2.2 < N := by
  intro t ht
  simp only [trace_o0, List.mem_flatMap, List.mem_map, List.mem_range] at ht
  obtain ⟨j, hj, i, hi, k, _, rfl⟩ := ht
  exact ⟨hi, hj⟩

theorem trace_o1_cells {M N K : Nat} : ∀ t ∈ trace_o1 M N K, t.1 < M ∧ t.2.2 < N := by
  intro t ht
  simp only [trace_o1, List.mem_flatMap, List.mem_map, List.mem_range] at ht
  obtain ⟨i, hi, k, _, j, hj, rfl⟩ := ht
  exact ⟨hi, hj⟩

theorem trace_o2_cells {M N K T : Nat} : ∀ t ∈ trace_o2 M N K T, t.1 < M ∧ t.2.2 < N := by
  intro t ht
  simp only [trace_o2, tileIters, List.mem_flatMap, List.mem_map, List.mem_range] at ht
  obtain ⟨jj, _, kk, _, i, hi, k, _, j, hj, rfl⟩ := ht
  obtain ⟨h1, h2⟩ := mem_listIco.mp hj
  have h3 : min (jj + T) N ≤ N := min_le_right _ _
  exact ⟨hi, show j < N by omega⟩

theorem trace_gpu_o0_cells {M N K : Nat} : ∀ t ∈ trace_gpu_o0 M N K, t.1 < M ∧ t.2.2 < N := by
  intro t ht
  simp only [trace_gpu_o0, List.mem_flatMap, List.mem_map, List.mem_range] at ht
  obtain ⟨i, hi, j, hj, k, _, rfl⟩ := ht
  exact ⟨hi, hj⟩

/-- Any index inside the output rectangle is a unique flat cell. -/
theorem exists_cell {M N idx : Nat} (hN : 0 < N) (hMN : idx < M * N) :
    ∃ i j, i < M ∧ j < N ∧ idx = i * N + j := by
  refine ⟨idx / N, idx % N, (Nat.div_lt_iff_lt_mul hN).mpr hMN, Nat.mod_lt _ hN, ?_⟩
  have h2 : idx / N * N = N * (idx / N) := mul_comm _ _
  have h3 := Nat.div_add_mod idx N
  omega

/-! ## Characterisation of the five accumulating loop nests -/

theorem cpu_o0_char (add mul : α → α → α) (A B C : Nat → α) (M N K : Nat) :
    gemm_cpu_o0 add mul A B C M N K = gemmCells add mul A B C M N K := by
  funext idx
  rw [o0_trace]
  unfold gemmCells
  by_cases h : 0 < N ∧ idx < M * N
  · obtain ⟨i, j, hi, hj, rfl⟩ := exists_cell h.1 h.2
    rw [if_pos h, flat_div hj, flat_mod hj]
    exact applyTrace_cell add mul A B C K N _ i j (trace_o0_filter hi hj)
  · rw [if_neg h]
    exact applyTrace_away add mul A B C K M N _ trace_o0_cells idx h

theorem cpu_o1_char (add mul : α → α → α) (A B C : Nat → α) (M N K : Nat) :
    gemm_cpu_o1 add mul A B C M N K = gemmCells add mul A B C M N K := by
  funext idx
  rw [o1_trace]
  unfold gemmCells
  by_cases h : 0 < N ∧ idx < M * N
  · obtain ⟨i, j, hi, hj, rfl⟩ := exists_cell h.1 h.2
    rw [if_pos h, flat_div hj, flat_mod hj]
    exact applyTrace_cell add mul A B C K N _ i j (trace_o1_filter hi hj)
  · rw [if_neg h]
    exact applyTrace_away add mul A B C K M N _ trace_o1_cells idx h

theorem cpu_o2_char (add mul : α → α → α) (A B C : Nat → α) (M N K : Nat) :
    gemm_cpu_o2 add mul A B C M N K = gemmCells add mul A B C M N K := by
  funext idx
  rw [o2_trace]
  unfold gemmCells
  by_cases h : 0 < N ∧ idx < M * N
  · obtain ⟨i, j, hi, hj, rfl⟩ := exists_cell h.1 h.2
    rw [if_pos h, flat_div hj, flat_mod hj]
    exact applyTrace_cell add mul A B C K N _ i j
      (trace_o2_filter (by norm_num [TILE_SIZE]) hi hj)
  · rw [if_neg h]
    exact applyTrace_away add mul A B C K M N _ trace_o2_cells idx h

theorem cpu_o3_char (add mul : α → α → α) (A B C : Nat → α) (M N K : Nat) :
    gemm_cpu_o3 add mul A B C M N K = gemmCells add mul A B C M N K := by
  funext idx
  rw [o3_trace]
  unfold gemmCells
  by_cases h : 0 < N ∧ idx < M * N
  · obtain ⟨i, j, hi, hj, rfl⟩ := exists_cell h.1 h.2
    rw [if_pos h, flat_div hj, flat_mod hj]
    exact applyTrace_cell add mul A B C K N _ i j
      (trace_o2_filter (by norm_num [TILE_SIZE]) hi hj)
  · rw [if_neg h]
    exact applyTrace_away add mul A B C K M N _ trace_o2_cells idx h

theorem gpu_o0_char (add mul : α → α → α) (A B C : Nat → α) (M N K : Nat) :
    gemm_gpu_o0 add mul A B C M N K = gemmCells add mul A B C M N K := by
  funext idx
  rw [gpu_o0_trace]
  unfold gemmCells
  by_cases h : 0 < N ∧ idx < M * N
  · obtain ⟨i, j, hi, hj, rfl⟩ := exists_cell h.1 h.2
    rw [if_pos h, flat_div hj, flat_mod hj]
    exact applyTrace_cell add mul A B C K N _ i j (trace_gpu_o0_filter hi hj)
  · rw [if_neg h]
    exact applyTrace_away add mul A B C K M N _ trace_gpu_o0_cells idx h

/-! ## Characterisation of the GPU thread grids -/

theorem gridRun_inner (M N : Nat) (w : Nat → Nat → α) (row : Nat) (hN : 0 < N)
    (cols : List Nat) (C : Nat → α) (idx : Nat) :
    (cols.foldl (fun c1 col =>
        if row < M ∧ col < N then
          (fun i2 => if i2 = row * N + col then w row col else c1 i2)
        else c1) C) idx
      = if row < M ∧ idx / N = row ∧ idx % N ∈ cols then w row (idx % N) else C idx := by
  induction cols generalizing C with
  | nil => simp
  | cons col cols ih =>
      rw [List.foldl_cons, ih]
      by_cases hc : row < M ∧ idx / N = row ∧ idx % N ∈ cols
      · rw [if_pos hc, if_pos ⟨hc.1, hc.2.1, List.mem_cons_of_mem col hc.2.2⟩]
      · rw [if_neg hc]
        have happ : (if row < M ∧ col < N then
              (fun i2 => if i2 = row * N + col then w row col else C i2)
            else C) idx
            = if row < M ∧ col < N then
                (if idx = row * N + col then w row col else C idx)
              else C idx := by
          by_cases hg : row < M ∧ col < N
          · rw [if_pos hg, if_pos hg]
          · rw [if_neg hg, if_neg hg]
        rw [happ]
        by_cases hhit : row < M ∧ idx / N = row ∧ idx % N = col
        · have hmod : idx % N < N := Nat.mod_lt idx hN
          have hcolN : col < N := by omega
          have hidxeq : idx = row * N + col := by
            have h3 := Nat.div_add_mod idx N
            rw [hhit.2.1, hhit.2.2] at h3
            have h4 : row * N = N * row := mul_comm _ _
            omega
          rw [if_pos ⟨hhit.1, hcolN⟩, if_pos hidxeq,
            if_pos ⟨hhit.1, hhit.2.1, by rw [hhit.2.2]; exact List.mem_cons_self col cols⟩,
            hhit.2.2]
        · rw [if_neg (show ¬(row < M ∧ idx / N = row ∧ idx % N ∈ col :: cols) by
            rintro ⟨h1, h2, h3⟩
            rcases List.mem_cons.mp h3 with heq | hmem
            · exact hhit ⟨h1, h2, heq⟩
            · exact hc ⟨h1, h2, hmem⟩)]
          by_cases hg : row < M ∧ col < N
          · rw [if_pos hg, if_neg (show idx ≠ row * N + col by
              rintro rfl
              exact hhit ⟨hg.1, flat_div hg.2, flat_mod hg.2⟩)]
          · rw [if_neg hg]

theorem gridRun_rows (M N : Nat) (w : Nat → Nat → α) (hN : 0 < N)
    (rows cols : List Nat) (C : Nat → α) (idx : Nat) :
    (rows.foldl (fun c0 row => cols.foldl (fun c1 col =>
        if row < M ∧ col < N then
          (fun i2 => if i2 = row * N + col then w row col else c1 i2)
        else c1) c0) C) idx
      = if idx / N ∈ rows ∧ idx / N < M ∧ idx % N ∈ cols then w (idx / N) (idx % N)
        else C idx := by
  induction rows generalizing C with
  | nil => simp
  | cons row rows ih =>
      rw [List.foldl_cons, ih]
      by_cases hc : idx / N ∈ rows ∧ idx / N < M ∧ idx % N ∈ cols
      · rw [if_pos hc, if_pos ⟨List.mem_cons_of_mem row hc.1, hc.2⟩]
      · rw [if_neg hc, gridRun_inner M N w row hN cols C idx]
        by_cases hhit : row < M ∧ idx / N = row ∧ idx % N ∈ cols
        · rw [if_pos hhit,
            if_pos ⟨by rw [hhit.2.1]; exact List.mem_cons_self row rows,
              by rw [hhit.2.1]; exact hhit.1, hhit.2.2⟩, hhit.2.1]
        · rw [if_neg hhit, if_neg (show
            ¬(idx / N ∈ row :: rows ∧ idx / N < M ∧ idx % N ∈ cols) by
              rintro ⟨h1, h2, h3⟩
              rcases List.mem_cons.mp h1 with heq | hmem
              · exact hhit ⟨heq ▸ h2, heq, h3⟩
              · exact hc ⟨hmem, h2, h3⟩)]

/-- The final state of a guarded thread grid: every cell of the `M × N`
output rectangle holds its thread's value, everything else is the prior
`C`. -/
theorem gridRun_char (bs : Nat) (hbs : 0 < bs) (w : Nat → Nat → α) (C : Nat → α)
    (M N : Nat) :
    gridRun bs w C M N = fun idx =>
      if 0 < N ∧ idx < M * N then w (idx / N) (idx % N) else C idx := by
  funext idx
  by_cases hN : 0 < N
  · unfold gridRun
    rw [gridRun_rows M N w hN _ _ C idx]
    by_cases h : idx < M * N
    · have hdiv : idx / N < M := (Nat.div_lt_iff_lt_mul hN).mpr h
      have hdivg : idx / N < gridCover M bs := by
        have := le_ceil_mul M bs hbs
        unfold gridCover
        omega
      have hmodg : idx % N < gridCover N bs := by
        have h1 := le_ceil_mul N bs hbs
        have h2 : idx % N < N := Nat.mod_lt idx hN
        unfold gridCover
        omega
      rw [if_pos ⟨List.mem_range.mpr hdivg, hdiv, List.mem_range.mpr hmodg⟩,
        if_pos ⟨hN, h⟩]
    · rw [if_neg (show ¬_ by
        rintro ⟨_, h2, _⟩
        exact h ((Nat.div_lt_iff_lt_mul hN).mp h2)), if_neg (by tauto)]
  · have hN0 : N = 0 := by omega
    subst hN0
    unfold gridRun
    have hg0 : gridCover 0 bs = 0 := by
      unfold gridCover
      rw [Nat.zero_add, Nat.div_eq_of_lt (by omega), Nat.zero_mul]
    rw [hg0]
    simp only [List.range_zero, List.foldl_nil]
    rw [foldl_const, if_neg (by omega)]

/-! ## Exact-arithmetic (ℚ) values of the per-cell folds -/

theorem foldl_add_eq (f : Nat → ℚ) (c : ℚ) (n : Nat) :
    (List.range n).foldl (fun acc k => acc + f k) c = c + ∑ k ∈ Finset.range n, f k := by
  induction n with
  | zero => simp
  | succ n ih =>
      rw [List.range_succ, List.foldl_append, ih, List.foldl_cons, List.foldl_nil,
        Finset.sum_range_succ, add_assoc]

theorem cellValue_rat (A B : Nat → ℚ) (K N i j : Nat) (c : ℚ) :
    cellValue (· + ·) (· * ·) A B K N i j c
      = c + ∑ k ∈ Finset.range K, A (i * K + k) * B (k * N + j) :=
  foldl_add_eq _ c K

theorem o1ThreadSum_rat (A B : Nat → ℚ) (N K row col : Nat) :
    o1ThreadSum 0 (· + ·) (· * ·) A B N K row col
      = ∑ k ∈ Finset.range K, A (row * K + k) * B (k * N + col) := by
  unfold o1ThreadSum
  rw [foldl_add_eq (fun k => A (row * K + k) * B (k * N + col)) 0 K, zero_add]

theorem sum_tiles (g : Nat → ℚ) (n T : Nat) :
    ∑ m ∈ Finset.range n, ∑ k ∈ Finset.range T, g (m * T + k)
      = ∑ q ∈ Finset.range (n * T), g q := by
  induction n with
  | zero => simp
  | succ n ih =>
      rw [Finset.sum_range_succ, ih, show (n + 1) * T = n * T + T from by ring]
      have hsplit := Finset.sum_Ico_consecutive g (Nat.zero_le (n * T))
        (Nat.le_add_right (n * T) T)
      rw [Finset.range_eq_Ico, ← hsplit, ← Finset.range_eq_Ico]
      congr 1
      rw [Finset.sum_Ico_eq_sum_range, show n * T + T - n * T = T from by omega]

theorem sum_range_ite (g : Nat → ℚ) (n K : Nat) (hK : K ≤ n) :
    ∑ q ∈ Finset.range n, (if q < K then g q else 0) = ∑ q ∈ Finset.range K, g q := by
  rw [← Finset.sum_subset (Finset.range_subset.mpr hK)
    (fun q _ hq => if_neg (by simpa using hq))]
  exact Finset.sum_congr rfl (fun q hq => if_pos (Finset.mem_range.mp hq))

/-- With the zero-filled out-of-range loads, the tiled per-thread
accumulation collapses to the plain inner product of length `K`. -/
theorem tiledCvalue_rat (A B : Nat → ℚ) (T M N K row col : Nat) (hT : 0 < T)
    (hrow : row < M) (hcol : col < N) :
    tiledCvalue 0 (· + ·) (· * ·) A B T M N K row col
      = ∑ k ∈ Finset.range K, A (row * K + k) * B (k * N + col) := by
  unfold tiledCvalue
  have houter : (fun (cv : ℚ) (m : Nat) => (List.range T).foldl (fun cv2 k =>
        cv2 + sharedA 0 A T M K row m k * sharedB 0 B T N K col m k) cv)
      = fun cv m => cv + ∑ k ∈ Finset.range T,
          sharedA 0 A T M K row m k * sharedB 0 B T N K col m k := by
    funext cv m
    exact foldl_add_eq _ cv T
  rw [houter, foldl_add_eq (fun m => ∑ k ∈ Finset.range T,
    sharedA 0 A T M K row m k * sharedB 0 B T N K col m k) 0 ((K + T - 1) / T), zero_add]
  have hterm : ∀ m k : Nat, sharedA 0 A T M K row m k * sharedB 0 B T N K col m k
      = if m * T + k < K then A (row * K + (m * T + k)) * B ((m * T + k) * N + col)
        else 0 := by
    intro m k
    unfold sharedA sharedB
    by_cases h : m * T + k < K
    · rw [if_pos ⟨hrow, h⟩, if_pos ⟨hcol, h⟩, if_pos h]
    · rw [if_neg (by tauto), if_neg (by tauto), if_neg h, mul_zero]
  have hsum : ∀ m ∈ Finset.range ((K + T - 1) / T),
      (∑ k ∈ Finset.range T, sharedA 0 A T M K row m k * sharedB 0 B T N K col m k)
        = ∑ k ∈ Finset.range T, (fun q => if q < K then
            A (row * K + q) * B (q * N + col) else 0) (m * T + k) :=
    fun m _ => Finset.sum_congr rfl (fun k _ => hterm m k)
  rw [Finset.sum_congr rfl hsum,
    sum_tiles (fun q => if q < K then A (row * K + q) * B (q * N + col) else 0)
      ((K + T - 1) / T) T,
    sum_range_ite _ _ _ (le_ceil_mul K T hT)]

/-- The ℚ denotation of `gemm_gpu_o1`: in-range cells are ASSIGNED the
inner product, everything else keeps its prior contents. -/
theorem gpu_o1_char (A B C : Nat → ℚ) (M N K : Nat) :
    gemm_gpu_o1 0 (· + ·) (· * ·) A B C M N K
      = fun idx => if 0 < N ∧ idx < M * N then
          ∑ k ∈ Finset.range K, A (idx / N * K + k) * B (k * N + idx % N)
        else C idx := by
  unfold gemm_gpu_o1
  rw [gridRun_char BLOCK_SIZE (by norm_num [BLOCK_SIZE]) _ C M N]
  funext idx
  by_cases h : 0 < N ∧ idx < M * N
  · rw [if_pos h, if_pos h, o1ThreadSum_rat]
  · rw [if_neg h, if_neg h]

/-- The ℚ denotation of `gemm_gpu_o2`: identical to `gemm_gpu_o1`'s —
the zero-filled shared-memory tiling computes the same inner product. -/
theorem gpu_o2_char (A B C : Nat → ℚ) (M N K : Nat) :
    gemm_gpu_o2 0 (· + ·) (· * ·) A B C M N K
      = fun idx => if 0 < N ∧ idx < M * N then
          ∑ k ∈ Finset.range K, A (idx / N * K + k) * B (k * N + idx % N)
        else C idx := by
  unfold gemm_gpu_o2
  rw [gridRun_char TILE_SIZE_GPU (by norm_num [TILE_SIZE_GPU]) _ C M N]
  funext idx
  by_cases h : 0 < N ∧ idx < M * N
  · rw [if_pos h, if_pos h]
    exact tiledCvalue_rat A B TILE_SIZE_GPU M N K (idx / N) (idx % N)
      (by norm_num [TILE_SIZE_GPU]) ((Nat.div_lt_iff_lt_mul h.1).mpr h.2)
      (Nat.mod_lt idx h.1)
  · rw [if_neg h, if_neg h]

/-- The ℚ denotation of `gemm_gpu_o3`, same as `gemm_gpu_o2` with the
smaller tile edge. -/
theorem gpu_o3_char (A B C : Nat → ℚ) (M N K : Nat) :
    gemm_gpu_o3 0 (· + ·) (· * ·) A B C M N K
      = fun idx => if 0 < N ∧ idx < M * N then
          ∑ k ∈ Finset.range K, A (idx / N * K + k) * B (k * N + idx % N)
        else C idx := by
  unfold gemm_gpu_o3
  rw [gridRun_char TILE_SIZE_BEST (by norm_num [TILE_SIZE_BEST]) _ C M N]
  funext idx
  by_cases h : 0 < N ∧ idx < M * N
  · rw [if_pos h, if_pos h]
    exact tiledCvalue_rat A B TILE_SIZE_BEST M N K (idx / N) (idx % N)
      (by norm_num [TILE_SIZE_BEST]) ((Nat.div_lt_iff_lt_mul h.1).mpr h.2)
      (Nat.mod_lt idx h.1)
  · rw [if_neg h, if_neg h]

/-- Value of the common per-cell denotation at an in-range cell. -/
theorem gemmCells_at (add mul : α → α → α) (A B C : Nat → α) (M N K i j : Nat)
    (hi : i < M) (hj : j < N) :
    gemmCells add mul A B C M N K (i * N + j)
      = cellValue add mul A B K N i j (C (i * N + j)) := by
  unfold gemmCells
  rw [if_pos ⟨by omega, flat_lt hi hj⟩, flat_div hj, flat_mod hj]

/-- The per-cell denotation is the identity whenever a dimension is zero. -/
theorem gemmCells_degenerate (add mul : α → α → α) (A B C : Nat → α) (M N K : Nat)
    (h : M = 0 ∨ N = 0 ∨ K = 0) :
    gemmCells add mul A B C M N K = C := by
  funext idx
  unfold gemmCells
  rcases h with rfl | rfl | rfl
  · rw [if_neg]
    rintro ⟨_, hlt⟩
    rw [Nat.zero_mul] at hlt
    exact absurd hlt (Nat.not_lt_zero idx)
  · rw [if_neg (by omega)]
  · by_cases hc : 0 < N ∧ idx < M * N
    · rw [if_pos hc]; rfl
    · rw [if_neg hc]

/-! ## The claims -/

/-- C1: for every `M`, `N`, `K ≥ 0`, every `A` of size `M*K`, every `B`
of size `K*N` and a pre-zeroed `C`, the baseline kernel `gemm_cpu_o0`
terminates with `C[i,j] = Σₖ A[i,k]·B[k,j]` for all `0 ≤ i < M`,
`0 ≤ j < N`. -/
theorem C1_cpu_o0_baseline_correct (A B : Nat → ℚ) (M N K i j : Nat)
    (hi : i < M) (hj : j < N) :
    gemm_cpu_o0 (· + ·) (· * ·) A B (fun _ => 0) M N K (i * N + j)
      = ∑ k ∈ Finset.range K, A (i * K + k) * B (k * N + j) := by
  rw [cpu_o0_char, gemmCells_at (· + ·) (· * ·) A B _ M N K i j hi hj, cellValue_rat,
    zero_add]

/-- Witness for C1 at `M = N = K = 1`, `A = [2]`, `B = [3]`. -/
theorem C1_cpu_o0_baseline_correct_witness :
    gemm_cpu_o0 (· + ·) (· * ·) (fun _ => (2 : ℚ)) (fun _ => 3) (fun _ => 0) 1 1 1 (0 * 1 + 0)
      = ∑ k ∈ Finset.range 1, (fun _ => (2 : ℚ)) (0 * 1 + k) * (fun _ => (3 : ℚ)) (k * 1 + 0) :=
  C1_cpu_o0_baseline_correct (fun _ => 2) (fun _ => 3) 1 1 1 0 0 (by decide) (by decide)

/-- C10: the CPU variants `gemm_cpu_o0`, `gemm_cpu_o1`, `gemm_cpu_o2`
produce bit-identical outputs: their final states agree for an
arbitrary scalar type with arbitrary addition and multiplication (in
particular for IEEE-754 floats), because each accumulates into any
given cell the same terms in the same strictly increasing `k` order. -/
theorem C10_cpu_variants_bit_identical (add mul : α → α → α) (A B C : Nat → α)
    (M N K : Nat) :
    gemm_cpu_o0 add mul A B C M N K = gemm_cpu_o1 add mul A B C M N K ∧
    gemm_cpu_o0 add mul A B C M N K = gemm_cpu_o2 add mul A B C M N K :=
  ⟨(cpu_o0_char add mul A B C M N K).trans (cpu_o1_char add mul A B C M N K).symm,
   (cpu_o0_char add mul A B C M N K).trans (cpu_o2_char add mul A B C M N K).symm⟩

/-- C4: for every `M`, `N`, `K` (in particular those not divisible by
the tile edge 64, such as `M = N = K = 100`), the tiled `gemm_cpu_o2`
on a pre-zeroed `C` produces results identical to the non-tiled
baseline `gemm_cpu_o0` — here even exactly, not merely within
tolerance. -/
theorem C4_tiled_matches_baseline (A B : Nat → ℚ) (M N K : Nat) :
    gemm_cpu_o2 (· + ·) (· * ·) A B (fun _ => 0) M N K
      = gemm_cpu_o0 (· + ·) (· * ·) A B (fun _ => 0) M N K :=
  (cpu_o2_char (· + ·) (· * ·) A B _ M N K).trans
    (cpu_o0_char (· + ·) (· * ·) A B _ M N K).symm

/-- C2 counterexample: `gemm_gpu_o1_kernel` ASSIGNS
(`C[row*N+col] = sum`) rather than accumulating.  At `M = N = K = 1`,
`A = [2]`, `B = [3]` and initial `C = [1]`, the final cell holds
`2·3 = 6`, not the initial `1` plus `2·3`. -/
theorem C2_counterexample :
    gemm_gpu_o1 (0 : ℚ) (· + ·) (· * ·) (fun _ => 2) (fun _ => 3) (fun _ => 1) 1 1 1 0
        = 2 * 3 ∧
    gemm_gpu_o1 (0 : ℚ) (· + ·) (· * ·) (fun _ => 2) (fun _ => 3) (fun _ => 1) 1 1 1 0
        ≠ 1 + 2 * 3 := by
  have h : gemm_gpu_o1 (0 : ℚ) (· + ·) (· * ·) (fun _ => 2) (fun _ => 3) (fun _ => 1)
      1 1 1 0 = 2 * 3 := by
    rw [gpu_o1_char]
    norm_num
  exact ⟨h, by rw [h]; norm_num⟩

/-- C2 (amended): the CPU variants and `gemm_gpu_o0` accumulate into
`C` (`+=`), so each in-range cell ends at its initial value plus
`Σₖ A[i,k]·B[k,j]`; the thread-per-cell GPU kernels `gemm_gpu_o1`,
`gemm_gpu_o2`, `gemm_gpu_o3` instead assign, ending at the bare sum
independent of `C`'s prior contents. -/
theorem C2_amended_accumulate_vs_assign (A B C : Nat → ℚ) (M N K i j : Nat)
    (hi : i < M) (hj : j < N) :
    gemm_cpu_o0 (· + ·) (· * ·) A B C M N K (i * N + j)
        = C (i * N + j) + ∑ k ∈ Finset.range K, A (i * K + k) * B (k * N + j) ∧
    gemm_cpu_o1 (· + ·) (· * ·) A B C M N K (i * N + j)
        = C (i * N + j) + ∑ k ∈ Finset.range K, A (i * K + k) * B (k * N + j) ∧
    gemm_cpu_o2 (· + ·) (· * ·) A B C M N K (i * N + j)
        = C (i * N + j) + ∑ k ∈ Finset.range K, A (i * K + k) * B (k * N + j) ∧
    gemm_cpu_o3 (· + ·) (· * ·) A B C M N K (i * N + j)
        = C (i * N + j) + ∑ k ∈ Finset.range K, A (i * K + k) * B (k * N + j) ∧
    gemm_gpu_o0 (· + ·) (· * ·) A B C M N K (i * N + j)
        = C (i * N + j) + ∑ k ∈ Finset.range K, A (i * K + k) * B (k * N + j) ∧
    gemm_gpu_o1 0 (· + ·) (· * ·) A B C M N K (i * N + j)
        = ∑ k ∈ Finset.range K, A (i * K + k) * B (k * N + j) ∧
    gemm_gpu_o2 0 (· + ·) (· * ·) A B C M N K (i * N + j)
        = ∑ k ∈ Finset.range K, A (i * K + k) * B (k * N + j) ∧
    gemm_gpu_o3 0 (· + ·) (· * ·) A B C M N K (i * N + j)
        = ∑ k ∈ Finset.range K, A (i * K + k) * B (k * N + j) := by
  have hcell : 0 < N ∧ i * N + j < M * N := ⟨by omega, flat_lt hi hj⟩
  refine ⟨?_, ?_, ?_, ?_, ?_, ?_, ?_, ?_⟩
  · rw [cpu_o0_char, gemmCells_at (· + ·) (· * ·) A B C M N K i j hi hj, cellValue_rat]
  · rw [cpu_o1_char, gemmCells_at (· + ·) (· * ·) A B C M N K i j hi hj, cellValue_rat]
  · rw [cpu_o2_char, gemmCells_at (· + ·) (· * ·) A B C M N K i j hi hj, cellValue_rat]
  · rw [cpu_o3_char, gemmCells_at (· + ·) (· * ·) A B C M N K i j hi hj, cellValue_rat]
  · rw [gpu_o0_char, gemmCells_at (· + ·) (· * ·) A B C M N K i j hi hj, cellValue_rat]
  · rw [gpu_o1_char]
    show (if 0 < N ∧ i * N + j < M * N then _ else C (i * N + j)) = _
    rw [if_pos hcell, flat_div hj, flat_mod hj]
  · rw [gpu_o2_char]
    show (if 0 < N ∧ i * N + j < M * N then _ else C (i * N + j)) = _
    rw [if_pos hcell, flat_div hj, flat_mod hj]
  · rw [gpu_o3_char]
    show (if 0 < N ∧ i * N + j < M * N then _ else C (i * N + j)) = _
    rw [if_pos hcell, flat_div hj, flat_mod hj]

/-- Witness for the amended C2 at `M = N = K = 1`, `A = [2]`, `B = [3]`,
initial `C = [5]`. -/
theorem C2_amended_accumulate_vs_assign_witness :
    gemm_cpu_o0 (· + ·) (· * ·) (fun _ => (2 : ℚ)) (fun _ => 3) (fun _ => 5) 1 1 1 (0 * 1 + 0)
        = (fun _ => (5 : ℚ)) (0 * 1 + 0)
          + ∑ k ∈ Finset.range 1, (fun _ => (2 : ℚ)) (0 * 1 + k) * (fun _ => (3 : ℚ)) (k * 1 + 0) ∧
    gemm_gpu_o1 0 (· + ·) (· * ·) (fun _ => (2 : ℚ)) (fun _ => 3) (fun _ => 5) 1 1 1 (0 * 1 + 0)
        = ∑ k ∈ Finset.range 1, (fun _ => (2 : ℚ)) (0 * 1 + k) * (fun _ => (3 : ℚ)) (k * 1 + 0) := by
  have h := C2_amended_accumulate_vs_assign (fun _ => (2 : ℚ)) (fun _ => 3) (fun _ => 5)
    1 1 1 0 0 (by decide) (by decide)
  exact ⟨h.1, h.2.2.2.2.2.1⟩

/-- C3 counterexample: with `K = 0` but `M = N = 1`, `gemm_gpu_o1`
overwrites the in-range cell with the empty sum `0`; an initial
`C = [5]` is NOT left unchanged. -/
theorem C3_counterexample :
    gemm_gpu_o1 (0 : ℚ) (· + ·) (· * ·) (fun _ => 2) (fun _ => 3) (fun _ => 5) 1 1 0 0 = 0 ∧
    gemm_gpu_o1 (0 : ℚ) (· + ·) (· * ·) (fun _ => 2) (fun _ => 3) (fun _ => 5) 1 1 0 0
      ≠ (fun _ => (5 : ℚ)) 0 := by
  have h : gemm_gpu_o1 (0 : ℚ) (· + ·) (· * ·) (fun _ => 2) (fun _ => 3) (fun _ => 5)
      1 1 0 0 = 0 := by
    rw [gpu_o1_char]
    norm_num
  exact ⟨h, by rw [h]; norm_num⟩

/-- C3 (amended): all CPU variants and `gemm_gpu_o0` are no-ops
whenever `M = 0`, `N = 0` or `K = 0`; the assigning GPU kernels
`gemm_gpu_o1/o2/o3` are no-ops when `M = 0` or `N = 0`, but when
`K = 0` (and `M, N > 0`) they overwrite every in-range cell with zero
instead of leaving `C` unchanged (so they are no-ops on a pre-zeroed
`C` only). -/
theorem C3_amended_degenerate_dims (zero : α) (add mul : α → α → α)
    (A B C : Nat → α) (M N K : Nat) :
    (M = 0 ∨ N = 0 ∨ K = 0 →
      gemm_cpu_o0 add mul A B C M N K = C ∧
      gemm_cpu_o1 add mul A B C M N K = C ∧
      gemm_cpu_o2 add mul A B C M N K = C ∧
      gemm_cpu_o3 add mul A B C M N K = C ∧
      gemm_gpu_o0 add mul A B C M N K = C) ∧
    (M = 0 ∨ N = 0 →
      gemm_gpu_o1 zero add mul A B C M N K = C ∧
      gemm_gpu_o2 zero add mul A B C M N K = C ∧
      gemm_gpu_o3 zero add mul A B C M N K = C) ∧
    (K = 0 →
      gemm_gpu_o1 zero add mul A B C M N K
          = (fun idx => if 0 < N ∧ idx < M * N then zero else C idx) ∧
      gemm_gpu_o2 zero add mul A B C M N K
          = (fun idx => if 0 < N ∧ idx < M * N then zero else C idx) ∧
      gemm_gpu_o3 zero add mul A B C M N K
          = (fun idx => if 0 < N ∧ idx < M * N then zero else C idx)) := by
  have hMN : M = 0 ∨ N = 0 → ∀ idx : Nat, ¬(0 < N ∧ idx < M * N) := by
    rintro (rfl | rfl) idx ⟨h1, h2⟩
    · rw [Nat.zero_mul] at h2; omega
    · omega
  refine ⟨?_, ?_, ?_⟩
  · intro h
    exact ⟨(cpu_o0_char add mul A B C M N K).trans (gemmCells_degenerate add mul A B C M N K h),
      (cpu_o1_char add mul A B C M N K).trans (gemmCells_degenerate add mul A B C M N K h),
      (cpu_o2_char add mul A B C M N K).trans (gemmCells_degenerate add mul A B C M N K h),
      (cpu_o3_char add mul A B C M N K).trans (gemmCells_degenerate add mul A B C M N K h),
      (gpu_o0_char add mul A B C M N K).trans (gemmCells_degenerate add mul A B C M N K h)⟩
  · intro h
    refine ⟨?_, ?_, ?_⟩
    · unfold gemm_gpu_o1
      rw [gridRun_char BLOCK_SIZE (by norm_num [BLOCK_SIZE]) _ C M N]
      funext idx
      rw [if_neg (hMN h idx)]
    · unfold gemm_gpu_o2
      rw [gridRun_char TILE_SIZE_GPU (by norm_num [TILE_SIZE_GPU]) _ C M N]
      funext idx
      rw [if_neg (hMN h idx)]
    · unfold gemm_gpu_o3
      rw [gridRun_char TILE_SIZE_BEST (by norm_num [TILE_SIZE_BEST]) _ C M N]
      funext idx
      rw [if_neg (hMN h idx)]
  · rintro rfl
    refine ⟨?_, ?_, ?_⟩
    · unfold gemm_gpu_o1
      rw [gridRun_char BLOCK_SIZE (by norm_num [BLOCK_SIZE]) _ C M N]
      funext idx
      by_cases hc : 0 < N ∧ idx < M * N
      · rw [if_pos hc, if_pos hc]; rfl
      · rw [if_neg hc, if_neg hc]
    · unfold gemm_gpu_o2
      rw [gridRun_char TILE_SIZE_GPU (by norm_num [TILE_SIZE_GPU]) _ C M N]
      funext idx
      by_cases hc : 0 < N ∧ idx < M * N
      · rw [if_pos hc, if_pos hc]; rfl
      · rw [if_neg hc, if_neg hc]
    · unfold gemm_gpu_o3
      rw [gridRun_char TILE_SIZE_BEST (by norm_num [TILE_SIZE_BEST]) _ C M N]
      funext idx
      by_cases hc : 0 < N ∧ idx < M * N
      · rw [if_pos hc, if_pos hc]; rfl
      · rw [if_neg hc, if_neg hc]

/-- Witness for the amended C3: the CPU baseline is a no-op at `K = 0`,
`gemm_gpu_o1` is a no-op at `M = 0`, and at `K = 0` with `M = N = 1`
`gemm_gpu_o1` zeroes the single in-range cell. -/
theorem C3_amended_degenerate_dims_witness :
    gemm_cpu_o0 (· + ·) (· * ·) (fun _ => (2 : ℚ)) (fun _ => 3) (fun _ => 5) 1 1 0
        = (fun _ => (5 : ℚ)) ∧
    gemm_gpu_o1 (0 : ℚ) (· + ·) (· * ·) (fun _ => 2) (fun _ => 3) (fun _ => 5) 0 1 5
        = (fun _ => (5 : ℚ)) ∧
    gemm_gpu_o1 (0 : ℚ) (· + ·) (· * ·) (fun _ => 2) (fun _ => 3) (fun _ => 5) 1 1 0
        = (fun idx => if 0 < 1 ∧ idx < 1 * 1 then (0 : ℚ) else (fun _ => (5 : ℚ)) idx) :=
  ⟨((C3_amended_degenerate_dims (0 : ℚ) (· + ·) (· * ·) (fun _ => 2) (fun _ => 3)
      (fun _ => 5) 1 1 0).1 (Or.inr (Or.inr rfl))).1,
   ((C3_amended_degenerate_dims (0 : ℚ) (· + ·) (· * ·) (fun _ => 2) (fun _ => 3)
      (fun _ => 5) 0 1 5).2.1 (Or.inl rfl)).1,
   ((C3_amended_degenerate_dims (0 : ℚ) (· + ·) (· * ·) (fun _ => 2) (fun _ => 3)
      (fun _ => 5) 1 1 0).2.2 rfl).1⟩

/-- Any cell in the write footprint of a `(jj, kk)` tile task lies on
some row `i < M` at a column inside the task's clipped `j`-tile. -/
theorem tileWrites_mem {M N K T jj kk x : Nat} (hx : x ∈ tileWrites M N K T jj kk) :
    ∃ i j, i < M ∧ jj ≤ j ∧ j < jj + T ∧ j < N ∧ x = i * N + j := by
  unfold tileWrites tileIters at hx
  simp only [List.mem_map, List.mem_flatMap, List.mem_range] at hx
  obtain ⟨t, ⟨i, hi, k, _, j, hj, rfl⟩, rfl⟩ := hx
  obtain ⟨hj1, hj2⟩ := mem_listIco.mp hj
  exact ⟨i, j, hi, hj1, by omega, by omega, rfl⟩

/-- C5 counterexample: under `collapse(2)` the `(jj, kk) = (0, 0)` and
`(0, 64)` tile tasks of `gemm_cpu_o3` at `M = N = 1`, `K = 65` are
distinct parallel tasks, yet both write the same output cell `C[0]` —
their write footprints are NOT disjoint. -/
theorem C5_counterexample :
    ((0, 0) : Nat × Nat) ≠ (0, 64) ∧
    0 ∈ tileStarts 1 TILE_SIZE ∧
    0 ∈ tileStarts 65 TILE_SIZE ∧ 64 ∈ tileStarts 65 TILE_SIZE ∧
    ¬ List.Disjoint (tileWrites 1 1 65 TILE_SIZE 0 0) (tileWrites 1 1 65 TILE_SIZE 0 64) := by
  refine ⟨by decide, by decide, by decide, by decide, fun h => ?_⟩
  exact h (show 0 ∈ tileWrites 1 1 65 TILE_SIZE 0 0 by decide)
    (show 0 ∈ tileWrites 1 1 65 TILE_SIZE 0 64 by decide)

/-- C5 (amended): tile tasks of `gemm_cpu_o3` with DIFFERENT `jj`
(N-tiles) have disjoint write footprints; tasks that differ only in
`kk` (K-tiles) accumulate into the same output cells, as the
counterexample shows. -/
theorem C5_amended_distinct_jj_disjoint (M N K T jj1 kk1 jj2 kk2 : Nat) (hT : 0 < T)
    (h1 : jj1 ∈ tileStarts N T) (h2 : jj2 ∈ tileStarts N T) (hne : jj1 ≠ jj2) :
    List.Disjoint (tileWrites M N K T jj1 kk1) (tileWrites M N K T jj2 kk2) := by
  intro x hx1 hx2
  obtain ⟨i1, j1, hi1, ha1, hb1, hN1, rfl⟩ := tileWrites_mem hx1
  obtain ⟨i2, j2, _, ha2, hb2, hN2, hx⟩ := tileWrites_mem hx2
  obtain ⟨_, rfl⟩ := (flat_eq_iff hN2 hN1).mp hx.symm
  obtain ⟨t1, _, rfl⟩ := mem_tileStarts.mp h1
  obtain ⟨t2, _, rfl⟩ := mem_tileStarts.mp h2
  have hd1 := div_eq_of_tile hT ha1 hb1
  have hd2 := div_eq_of_tile hT ha2 hb2
  exact hne (by rw [← hd1, hd2])

/-- Witness for the amended C5: the `(jj, kk) = (0, 0)` and `(64, 0)`
tasks at `M = 1`, `N = 65`, `K = 1` write disjoint cell sets. -/
theorem C5_amended_distinct_jj_disjoint_witness :
    List.Disjoint (tileWrites 1 65 1 TILE_SIZE 0 0) (tileWrites 1 65 1 TILE_SIZE 64 0) :=
  C5_amended_distinct_jj_disjoint 1 65 1 TILE_SIZE 0 0 64 0 (by decide) (by decide)
    (by decide) (by decide)

/-- C6: in the shared-memory tiled GPU kernels, tile slots whose source
index falls outside `A` or `B` are loaded as zero, and consequently for
every `M`, `N`, `K` (divisible by the tile size or not) each in-range
output cell of `gemm_gpu_o2` and `gemm_gpu_o3` ends up holding exactly
`Σₖ A[i,k]·B[k,j]`, with no contribution from out-of-range slots. -/
theorem C6_gpu_tiled_zero_fill (A B C : Nat → ℚ) (M N K row col : Nat)
    (hrow : row < M) (hcol : col < N) :
    (∀ r m k, ¬(r < M ∧ m * TILE_SIZE_GPU + k < K) →
      sharedA (0 : ℚ) A TILE_SIZE_GPU M K r m k = 0) ∧
    (∀ c m k, ¬(c < N ∧ m * TILE_SIZE_GPU + k < K) →
      sharedB (0 : ℚ) B TILE_SIZE_GPU N K c m k = 0) ∧
    (∀ r m k, ¬(r < M ∧ m * TILE_SIZE_BEST + k < K) →
      sharedA (0 : ℚ) A TILE_SIZE_BEST M K r m k = 0) ∧
    (∀ c m k, ¬(c < N ∧ m * TILE_SIZE_BEST + k < K) →
      sharedB (0 : ℚ) B TILE_SIZE_BEST N K c m k = 0) ∧
    gemm_gpu_o2 0 (· + ·) (· * ·) A B C M N K (row * N + col)
      = ∑ k ∈ Finset.range K, A (row * K + k) * B (k * N + col) ∧
    gemm_gpu_o3 0 (· + ·) (· * ·) A B C M N K (row * N + col)
      = ∑ k ∈ Finset.range K, A (row * K + k) * B (k * N + col) := by
  have hcell : 0 < N ∧ row * N + col < M * N := ⟨by omega, flat_lt hrow hcol⟩
  refine ⟨fun r m k h => by unfold sharedA; rw [if_neg h],
    fun c m k h => by unfold sharedB; rw [if_neg h],
    fun r m k h => by unfold sharedA; rw [if_neg h],
    fun c m k h => by unfold sharedB; rw [if_neg h], ?_, ?_⟩
  · rw [gpu_o2_char]
    show (if 0 < N ∧ row * N + col < M * N then _ else C (row * N + col)) = _
    rw [if_pos hcell, flat_div hcol, flat_mod hcol]
  · rw [gpu_o3_char]
    show (if 0 < N ∧ row * N + col < M * N then _ else C (row * N + col)) = _
    rw [if_pos hcell, flat_div hcol, flat_mod hcol]

/-- Witness for C6 at `M = N = K = 1` (one 1×1 output against 32- and
16-wide tiles, so 31 resp. 15 slots per tile row are zero-filled). -/
theorem C6_gpu_tiled_zero_fill_witness :
    gemm_gpu_o2 0 (· + ·) (· * ·) (fun _ => (2 : ℚ)) (fun _ => 3) (fun _ => 5) 1 1 1 (0 * 1 + 0)
      = ∑ k ∈ Finset.range 1, (fun _ => (2 : ℚ)) (0 * 1 + k) * (fun _ => (3 : ℚ)) (k * 1 + 0) ∧
    gemm_gpu_o3 0 (· + ·) (· * ·) (fun _ => (2 : ℚ)) (fun _ => 3) (fun _ => 5) 1 1 1 (0 * 1 + 0)
      = ∑ k ∈ Finset.range 1, (fun _ => (2 : ℚ)) (0 * 1 + k) * (fun _ => (3 : ℚ)) (k * 1 + 0) := by
  have h := C6_gpu_tiled_zero_fill (fun _ => (2 : ℚ)) (fun _ => 3) (fun _ => 5) 1 1 1 0 0
    (by decide) (by decide)
  exact ⟨h.2.2.2.2.1, h.2.2.2.2.2⟩

/-- The per-cell denotation evaluated on the concrete 2×2 scenario. -/
theorem gemmCells_scenario :
    gemmCells (· + ·) (· * ·) scenarioA scenarioB zeroC 2 2 2 = scenarioC := by
  funext idx
  unfold gemmCells
  by_cases h : 0 < 2 ∧ idx < 2 * 2
  · rw [if_pos h, cellValue_rat]
    have h4 : idx < 4 := by omega
    interval_cases idx <;>
      norm_num [scenarioA, scenarioB, scenarioC, zeroC,
        Finset.sum_range_succ, Finset.sum_range_zero]
  · have h4 : ¬ idx < 4 := by omega
    rw [if_neg h]
    unfold zeroC scenarioC
    rw [if_neg (by omega), if_neg (by omega), if_neg (by omega), if_neg (by omega)]

/-- The assigned-inner-product denotation evaluated on the scenario. -/
theorem gpuValue_scenario :
    (fun idx => if 0 < 2 ∧ idx < 2 * 2 then
        ∑ k ∈ Finset.range 2, scenarioA (idx / 2 * 2 + k) * scenarioB (k * 2 + idx % 2)
      else zeroC idx) = scenarioC := by
  funext idx
  by_cases h : 0 < 2 ∧ idx < 2 * 2
  · rw [if_pos h]
    have h4 : idx < 4 := by omega
    interval_cases idx <;>
      norm_num [scenarioA, scenarioB, scenarioC,
        Finset.sum_range_succ, Finset.sum_range_zero]
  · have h4 : ¬ idx < 4 := by omega
    rw [if_neg h]
    unfold zeroC scenarioC
    rw [if_neg (by omega), if_neg (by omega), if_neg (by omega), if_neg (by omega)]

/-- C7: on the concrete input `M = N = K = 2`, `A = [[1,2],[3,4]]`,
`B = [[5,6],[7,8]]` with pre-zeroed `C`, every variant — the four CPU
kernels, the four GPU kernels, and the cuBLAS wrapper (modelled from
its documented contract) — produces `C = [[19,22],[43,50]]`. -/
theorem C7_scenario_all_variants :
    gemm_cpu_o0 (· + ·) (· * ·) scenarioA scenarioB zeroC 2 2 2 = scenarioC ∧
    gemm_cpu_o1 (· + ·) (· * ·) scenarioA scenarioB zeroC 2 2 2 = scenarioC ∧
    gemm_cpu_o2 (· + ·) (· * ·) scenarioA scenarioB zeroC 2 2 2 = scenarioC ∧
    gemm_cpu_o3 (· + ·) (· * ·) scenarioA scenarioB zeroC 2 2 2 = scenarioC ∧
    gemm_gpu_o0 (· + ·) (· * ·) scenarioA scenarioB zeroC 2 2 2 = scenarioC ∧
    gemm_gpu_o1 0 (· + ·) (· * ·) scenarioA scenarioB zeroC 2 2 2 = scenarioC ∧
    gemm_gpu_o2 0 (· + ·) (· * ·) scenarioA scenarioB zeroC 2 2 2 = scenarioC ∧
    gemm_gpu_o3 0 (· + ·) (· * ·) scenarioA scenarioB zeroC 2 2 2 = scenarioC ∧
    gemm_cublas scenarioA scenarioB zeroC 2 2 2 = scenarioC := by
  have hcublas : gemm_cublas scenarioA scenarioB zeroC 2 2 2
      = (fun idx => if 0 < 2 ∧ idx < 2 * 2 then
          ∑ k ∈ Finset.range 2, scenarioA (idx / 2 * 2 + k) * scenarioB (k * 2 + idx % 2)
        else zeroC idx) := by
    funext idx
    unfold gemm_cublas
    by_cases h : 0 < 2 ∧ idx < 2 * 2
    · rw [if_pos h, if_pos h, one_mul]
      show _ + 0 * zeroC idx = _
      rw [zero_mul, add_zero]
    · rw [if_neg h, if_neg h]
  exact ⟨(cpu_o0_char _ _ _ _ _ _ _ _).trans gemmCells_scenario,
    (cpu_o1_char _ _ _ _ _ _ _ _).trans gemmCells_scenario,
    (cpu_o2_char _ _ _ _ _ _ _ _).trans gemmCells_scenario,
    (cpu_o3_char _ _ _ _ _ _ _ _).trans gemmCells_scenario,
    (gpu_o0_char _ _ _ _ _ _ _ _).trans gemmCells_scenario,
    (gpu_o1_char _ _ _ _ _ _).trans gpuValue_scenario,
    (gpu_o2_char _ _ _ _ _ _).trans gpuValue_scenario,
    (gpu_o3_char _ _ _ _ _ _).trans gpuValue_scenario,
    hcublas.trans gpuValue_scenario⟩

/-- C8: the `argc < 3` guard is off by one.  With the program name and
only `M`, `N` supplied (`argc = 3`, `K` missing), neither `main`
returns 1: both proceed into the benchmark path (and read the absent
`argv[3]`), returning 0.  Zero or one supplied arguments do exit
with 1, and the full three-argument call returns 0. -/
theorem C8_argc_guard_off_by_one :
    cpuMainExit ["mp1", "4", "5"] = 0 ∧ gpuMainExit ["mp1", "4", "5"] = 0 ∧
    cpuMainExit ["mp1", "4"] = 1 ∧ cpuMainExit ["mp1"] = 1 ∧
    gpuMainExit ["mp1", "4"] = 1 ∧ gpuMainExit ["mp1"] = 1 ∧
    cpuMainExit ["mp1", "4", "5", "6"] = 0 ∧ gpuMainExit ["mp1", "4", "5", "6"] = 0 :=
  ⟨rfl, rfl, rfl, rfl, rfl, rfl, rfl, rfl⟩

/-- C9: a failed reference check (`checkRef` returning false) writes a
warning line to stderr, execution continues through the remaining
checks and the timed runs (the stdout timing lines are still printed),
and the exit code is 0 whatever the check outcomes — a numeric
mismatch never terminates the process. -/
theorem C9_check_failure_nonfatal (ok0 ok1 ok2 ok3 g0 g1 g2 g3 gb : Bool) :
    (cpuMainRun ok0 ok1 ok2 ok3).exitCode = 0 ∧
    (gpuMainRun g0 g1 g2 g3 gb).exitCode = 0 ∧
    (cpuMainRun ok0 ok1 ok2 ok3).stdoutLines
      = ["Time taken for GEMM (CPU,gemm_cpu_o3): <elapsed>ms"] ∧
    (gpuMainRun g0 g1 g2 g3 gb).stdoutLines ≠ [] ∧
    (ok0 = false →
      "gemm_cpu_o0: check ref failed!" ∈ (cpuMainRun ok0 ok1 ok2 ok3).stderrLines) ∧
    (ok1 = false →
      "gemm_cpu_o1: check ref failed!" ∈ (cpuMainRun ok0 ok1 ok2 ok3).stderrLines) ∧
    (ok2 = false →
      "gemm_cpu_o2: check ref failed!" ∈ (cpuMainRun ok0 ok1 ok2 ok3).stderrLines) ∧
    (ok3 = false →
      "gemm_cpu_o3: check ref failed!" ∈ (cpuMainRun ok0 ok1 ok2 ok3).stderrLines) ∧
    (g2 = false → "check ref failed!" ∈ (gpuMainRun g0 g1 g2 g3 gb).stderrLines) := by
  refine ⟨rfl, rfl, rfl, by simp [gpuMainRun], ?_, ?_, ?_, ?_, ?_⟩ <;>
    rintro rfl <;> simp [cpuMainRun, gpuMainRun, checkBlock, gpuCheckBlock]

/-- Witness for C9: with every check failing, the exit code is still 0
and the `gemm_cpu_o2` warning is on stderr. -/
theorem C9_check_failure_nonfatal_witness :
    (cpuMainRun false false false false).exitCode = 0 ∧
    "gemm_cpu_o2: check ref failed!" ∈ (cpuMainRun false false false false).stderrLines :=
  ⟨(C9_check_failure_nonfatal false false false false false false false false false).1,
   (C9_check_failure_nonfatal false false false false false false false false
     false).2.2.2.2.2.2.1 rfl⟩

end Gemm
